import Mathlib

/-
Verification of the version-resolution logic of automatic_release.py.

The script's core is pure: parsing version tags, computing the next
version from the current version and the list of parsed tags, and
formatting versions back to strings.  File-system state (the VERSION
marker file) is injected as an explicit parameter; the possibility of a
Python IndexError is made explicit in a result type.
-/

/-- A version triple as produced by parse_version: three non-negative
integers (major, minor, patch). -/
structure Version where
  major : Nat
  minor : Nat
  patch : Nat
deriving DecidableEq, Repr

/-- Greedy run of ASCII digits at the front of a character list, with the
remainder; embeds the regex fragment [0-9]+ (greedy, and since the regex
continues with a literal dot, greediness is forced in every match). -/
def takeDigits : List Char → List Char × List Char
  | [] => ([], [])
  | c :: cs =>
    if c.isDigit then
      (c :: (takeDigits cs).1, (takeDigits cs).2)
    else ([], c :: cs)

/-- Value of a list of ASCII digit characters read in base 10, as Python
int() computes it (leading zeros allowed). -/
def natOfDigits (l : List Char) : Nat :=
  l.foldl (fun a c => 10 * a + (c.toNat - 48)) 0

/-- parse_version on the character list of the input:
re.fullmatch of v([0-9]+)\.([0-9]+)\.([0-9]+) against the whole string;
on a match the three captured digit groups are read with int(),
otherwise None.  (A literal dot follows each digit group in the
pattern, so the greedy digit runs of takeDigits are the only possible
capture boundaries.) -/
def parse_version_core (l : List Char) : Option Version :=
  match l with
  | 'v' :: rest =>
    match takeDigits rest with
    | (d1, '.' :: r2) =>
      match takeDigits r2 with
      | (d2, '.' :: r4) =>
        match takeDigits r4 with
        | (d3, []) =>
          if d1 ≠ [] ∧ d2 ≠ [] ∧ d3 ≠ [] then
            some ⟨natOfDigits d1, natOfDigits d2, natOfDigits d3⟩
          else none
        | _ => none
      | _ => none
    | _ => none
  | _ => none

/-- parse_version as in the script: applied to a whole string. -/
def parse_version (s : String) : Option Version :=
  parse_version_core s.data

/-- Decimal digit characters of a positive natural, most significant
first; empty for 0 (helper for natRepr). -/
def natReprCore (n : Nat) : List Char :=
  if h : n = 0 then []
  else natReprCore (n / 10) ++ [Nat.digitChar (n % 10)]
decreasing_by exact Nat.div_lt_self (Nat.pos_of_ne_zero h) (by decide)

/-- Decimal representation of a natural number, as Python str() renders a
non-negative int: no sign, no padding, no leading zeros. -/
def natRepr (n : Nat) : List Char :=
  if n = 0 then ['0'] else natReprCore n

/-- version_string: renders a version as in the f-string
v{major}.{minor}.{patch}. -/
def version_string (version : Version) : String :=
  String.mk ('v' :: (natRepr version.major ++ '.' :: (natRepr version.minor ++ '.' :: natRepr version.patch)))

/-- Characters at which Python str.splitlines breaks lines. -/
def isLineBoundary (c : Char) : Bool :=
  c.toNat = 10 || c.toNat = 11 || c.toNat = 12 || c.toNat = 13 ||
  c.toNat = 28 || c.toNat = 29 || c.toNat = 30 || c.toNat = 133 ||
  c.toNat = 8232 || c.toNat = 8233

/-- Worker for splitlines: accumulates the current line (reversed);
carriage return followed by line feed counts as a single break; no empty
trailing line is produced. -/
def splitlinesAux : List Char → List Char → List (List Char)
  | [], acc => if acc = [] then [] else [acc.reverse]
  | c :: cs, acc =>
    if c.toNat = 13 then
      match cs with
      | d :: ds =>
        if d.toNat = 10 then acc.reverse :: splitlinesAux ds []
        else acc.reverse :: splitlinesAux (d :: ds) []
      | [] => [acc.reverse]
    else if isLineBoundary c then acc.reverse :: splitlinesAux cs []
    else splitlinesAux cs (c :: acc)

/-- Python str.splitlines on a string: list of lines without their line
boundaries; the empty string yields the empty list. -/
def splitlines (s : String) : List String :=
  (splitlinesAux s.data []).map String.mk

/-- ASCII whitespace stripped by Python str.strip with no argument. -/
def py_isspace (c : Char) : Bool :=
  c.toNat = 32 || c.toNat = 9 || c.toNat = 10 || c.toNat = 11 ||
  c.toNat = 12 || c.toNat = 13

/-- Python str.strip with no argument: removes whitespace from both
ends. -/
def pyStrip (s : String) : String :=
  String.mk (((s.data.dropWhile py_isspace).reverse.dropWhile py_isspace).reverse)

/-- Outcome of a Python function that either returns a value or raises an
IndexError. -/
inductive PyOutcome (α : Type) where
  | ok (val : α)
  | indexError
deriving DecidableEq, Repr

/-- True when the Python call returned normally rather than raising. -/
def PyOutcome.isOk {α : Type} : PyOutcome α → Bool
  | .ok _ => true
  | .indexError => false

/-- get_current_version with the marker-file state injected: none means
the VERSION file does not exist, some content is its full content.  The
code indexes splitlines()[0], which raises IndexError on empty content;
a parse failure of the first stripped line propagates None. -/
def get_current_version (marker : Option String) : PyOutcome (Option Version) :=
  match marker with
  | none => .ok (some ⟨1, 0, 0⟩)
  | some content =>
    match splitlines content with
    | [] => .indexError
    | line :: _ => .ok (parse_version (pyStrip line))

/-- Python max on a list of naturals; the script only applies it to
non-empty lists (max on an empty list raises in Python; 0 here is a
junk value never relied upon). -/
def pyMax : List Nat → Nat
  | [] => 0
  | x :: xs => xs.foldl max x

/-- The local list bugfix_revs of get_next_version: the patch components
of the versions whose major and minor equal the current version's, in
input order (the Python list comprehension over get_versions()). -/
def bugfix_revs (current_version : Version) (versions : List Version) : List Nat :=
  versions.filterMap (fun v =>
    if v.major = current_version.major ∧ v.minor = current_version.minor
    then some v.patch else none)

/-- get_next_version with its two effectful inputs injected: the current
version (already a triple) and the parsed versions of all tags, in tag
order. -/
def get_next_version (current_version : Version) (versions : List Version) : Version :=
  if (bugfix_revs current_version versions).length = 0 then
    ⟨current_version.major, current_version.minor, 0⟩
  else
    ⟨current_version.major, current_version.minor,
      pyMax (bugfix_revs current_version versions) + 1⟩

/-- write_version_file with the file system made explicit: the content
written to the VERSION file (no trailing newline). -/
def write_version_file (version : Version) : String :=
  version_string version

/-- Modelled from the spec: the whole string matches the anchored
pattern v(\d+)\.(\d+)\.(\d+) — a letter v, then three non-empty runs of
decimal digits separated by literal dots, with nothing before or
after. -/
def spec_full_match (s : String) : Prop :=
  ∃ d1 d2 d3 : List Char,
    d1 ≠ [] ∧ d2 ≠ [] ∧ d3 ≠ [] ∧
    (∀ c ∈ d1, c.isDigit = true) ∧ (∀ c ∈ d2, c.isDigit = true) ∧
    (∀ c ∈ d3, c.isDigit = true) ∧
    s.data = 'v' :: (d1 ++ '.' :: (d2 ++ '.' :: d3))

/-! ### Lemmas about takeDigits -/

theorem takeDigits_append (d : List Char) (c : Char) (r : List Char)
    (hd : ∀ x ∈ d, x.isDigit = true) (hc : c.isDigit = false) :
    takeDigits (d ++ c :: r) = (d, c :: r) := by
  induction d with
  | nil => simp [takeDigits, hc]
  | cons a as ih =>
    have ha : a.isDigit = true := hd a (by simp)
    have ih2 := ih (fun x hx => hd x (by simp [hx]))
    simp [takeDigits, ha, ih2]

theorem takeDigits_all (d : List Char) (hd : ∀ x ∈ d, x.isDigit = true) :
    takeDigits d = (d, []) := by
  induction d with
  | nil => simp [takeDigits]
  | cons a as ih =>
    have ha : a.isDigit = true := hd a (by simp)
    have ih2 := ih (fun x hx => hd x (by simp [hx]))
    simp [takeDigits, ha, ih2]

theorem takeDigits_sound (l : List Char) : ∀ d r, takeDigits l = (d, r) →
    l = d ++ r ∧ (∀ x ∈ d, x.isDigit = true) ∧
      ∀ c cs, r = c :: cs → c.isDigit = false := by
  induction l with
  | nil =>
    intro d r h
    unfold takeDigits at h
    injection h with h1 h2
    subst h1; subst h2
    exact ⟨rfl, by simp, by intro c cs hc; cases hc⟩
  | cons a as ih =>
    intro d r h
    unfold takeDigits at h
    by_cases ha : a.isDigit = true
    · rw [if_pos ha] at h
      injection h with h1 h2
      obtain ⟨e1, e2, e3⟩ := ih (takeDigits as).1 (takeDigits as).2 rfl
      subst h1; subst h2
      refine ⟨?_, ?_, e3⟩
      · rw [List.cons_append, ← e1]
      · intro x hx
        rcases List.mem_cons.mp hx with hx | hx
        · subst hx; exact ha
        · exact e2 x hx
    · rw [if_neg ha] at h
      injection h with h1 h2
      subst h1; subst h2
      refine ⟨rfl, by simp, ?_⟩
      intro c cs hc
      injection hc with hc1 hc2
      subst hc1
      simpa using ha

/-! ### Lemmas about decimal representation -/

theorem digitChar_isDigit (m : Nat) (h : m < 10) :
    (Nat.digitChar m).isDigit = true := by
  interval_cases m <;> decide

theorem digitChar_toNat (m : Nat) (h : m < 10) :
    (Nat.digitChar m).toNat = 48 + m := by
  interval_cases m <;> decide

theorem natReprCore_digits (n : Nat) : ∀ c ∈ natReprCore n, c.isDigit = true := by
  induction n using Nat.strong_induction_on with
  | _ n ih =>
    rw [natReprCore]
    split
    · simp
    · rename_i hn
      intro c hc
      rcases List.mem_append.mp hc with h | h
      · exact ih (n / 10) (Nat.div_lt_self (Nat.pos_of_ne_zero hn) (by decide)) c h
      · have : c = Nat.digitChar (n % 10) := by simpa using h
        subst this
        exact digitChar_isDigit _ (Nat.mod_lt _ (by decide))

theorem natOfDigits_append_single (l : List Char) (c : Char) :
    natOfDigits (l ++ [c]) = 10 * natOfDigits l + (c.toNat - 48) := by
  simp [natOfDigits, List.foldl_append]

theorem natOfDigits_natReprCore (n : Nat) : natOfDigits (natReprCore n) = n := by
  induction n using Nat.strong_induction_on with
  | _ n ih =>
    rw [natReprCore]
    split
    · rename_i hn; subst hn; rfl
    · rename_i hn
      rw [natOfDigits_append_single,
        ih (n / 10) (Nat.div_lt_self (Nat.pos_of_ne_zero hn) (by decide)),
        digitChar_toNat _ (Nat.mod_lt _ (by decide))]
      omega

theorem natRepr_ne_nil (n : Nat) : natRepr n ≠ [] := by
  unfold natRepr
  split
  · simp
  · rename_i hn
    rw [natReprCore]
    split
    · exact absurd (by assumption) hn
    · simp

theorem natRepr_digits (n : Nat) : ∀ c ∈ natRepr n, c.isDigit = true := by
  unfold natRepr
  split
  · intro c hc
    have : c = '0' := by simpa using hc
    subst this; decide
  · exact natReprCore_digits n

theorem natOfDigits_natRepr (n : Nat) : natOfDigits (natRepr n) = n := by
  unfold natRepr
  split
  · rename_i hn; subst hn; rfl
  · exact natOfDigits_natReprCore n

/-! ### The parser on well-formed inputs, and parser soundness -/

theorem parse_version_core_mk (d1 d2 d3 : List Char)
    (h1 : d1 ≠ []) (h2 : d2 ≠ []) (h3 : d3 ≠ [])
    (g1 : ∀ c ∈ d1, c.isDigit = true) (g2 : ∀ c ∈ d2, c.isDigit = true)
    (g3 : ∀ c ∈ d3, c.isDigit = true) :
    parse_version_core ('v' :: (d1 ++ '.' :: (d2 ++ '.' :: d3))) =
      some ⟨natOfDigits d1, natOfDigits d2, natOfDigits d3⟩ := by
  have t1 := takeDigits_append d1 '.' (d2 ++ '.' :: d3) g1 (by decide)
  have t2 := takeDigits_append d2 '.' d3 g2 (by decide)
  have t3 := takeDigits_all d3 g3
  simp [parse_version_core, t1, t2, t3, h1, h2, h3]

theorem parse_version_version_string (v : Version) :
    parse_version (version_string v) = some v := by
  obtain ⟨M, m, p⟩ := v
  show parse_version_core ('v' :: (natRepr M ++ '.' :: (natRepr m ++ '.' :: natRepr p))) = _
  rw [parse_version_core_mk _ _ _ (natRepr_ne_nil M) (natRepr_ne_nil m)
    (natRepr_ne_nil p) (natRepr_digits M) (natRepr_digits m) (natRepr_digits p),
    natOfDigits_natRepr, natOfDigits_natRepr, natOfDigits_natRepr]

theorem parse_version_core_some (l : List Char) (v : Version)
    (h : parse_version_core l = some v) :
    ∃ d1 d2 d3 : List Char,
      d1 ≠ [] ∧ d2 ≠ [] ∧ d3 ≠ [] ∧
      (∀ c ∈ d1, c.isDigit = true) ∧ (∀ c ∈ d2, c.isDigit = true) ∧
      (∀ c ∈ d3, c.isDigit = true) ∧
      l = 'v' :: (d1 ++ '.' :: (d2 ++ '.' :: d3)) := by
  unfold parse_version_core at h
  split at h
  case _ rest =>
    split at h
    case _ d1 r2 heq1 =>
      split at h
      case _ d2 r4 heq2 =>
        split at h
        case _ d3 heq3 =>
          split at h
          case isTrue hcond =>
            obtain ⟨h1, h2, h3⟩ := hcond
            obtain ⟨e1, g1, _⟩ := takeDigits_sound rest d1 ('.' :: r2) heq1
            obtain ⟨e2, g2, _⟩ := takeDigits_sound r2 d2 ('.' :: r4) heq2
            obtain ⟨e3, g3, _⟩ := takeDigits_sound r4 d3 [] heq3
            refine ⟨d1, d2, d3, h1, h2, h3, g1, g2, g3, ?_⟩
            rw [e1, e2, e3]
            simp
          case isFalse => cases h
        case _ => cases h
      case _ => cases h
    case _ => cases h
  case _ => cases h

theorem spec_full_match_iff (s : String) :
    spec_full_match s ↔ parse_version s ≠ none := by
  constructor
  · rintro ⟨d1, d2, d3, h1, h2, h3, g1, g2, g3, hdata⟩
    have : parse_version s = parse_version_core s.data := rfl
    rw [this, hdata, parse_version_core_mk d1 d2 d3 h1 h2 h3 g1 g2 g3]
    simp
  · intro h
    rcases ho : parse_version s with _ | v
    · exact absurd ho h
    · obtain ⟨d1, d2, d3, h1, h2, h3, g1, g2, g3, hdata⟩ :=
        parse_version_core_some s.data v ho
      exact ⟨d1, d2, d3, h1, h2, h3, g1, g2, g3, hdata⟩

/-! ### Lemmas about pyMax and bugfix_revs -/

theorem le_foldl_max (xs : List Nat) : ∀ a : Nat, a ≤ xs.foldl max a := by
  induction xs with
  | nil => intro a; simp
  | cons x xs ih =>
    intro a
    calc a ≤ max a x := Nat.le_max_left a x
    _ ≤ (x :: xs).foldl max a := by simpa [List.foldl] using ih (max a x)

theorem mem_le_foldl_max (xs : List Nat) :
    ∀ a x : Nat, x ∈ xs → x ≤ xs.foldl max a := by
  induction xs with
  | nil => intro a x hx; cases hx
  | cons y ys ih =>
    intro a x hx
    rcases List.mem_cons.mp hx with hx | hx
    · subst hx
      calc x ≤ max a x := Nat.le_max_right a x
      _ ≤ (x :: ys).foldl max a := by simpa [List.foldl] using le_foldl_max ys (max a x)
    · simpa [List.foldl] using ih (max a y) x hx

theorem foldl_max_mem (xs : List Nat) :
    ∀ a : Nat, xs.foldl max a = a ∨ xs.foldl max a ∈ xs := by
  induction xs with
  | nil => intro a; left; rfl
  | cons y ys ih =>
    intro a
    rcases ih (max a y) with h | h
    · rcases Nat.le_total a y with hle | hle
      · right
        rw [List.foldl, h, Nat.max_eq_right hle]
        simp
      · left
        rw [List.foldl, h, Nat.max_eq_left hle]
    · right
      rw [List.foldl]
      exact List.mem_cons_of_mem y h

theorem le_pyMax (l : List Nat) (x : Nat) (hx : x ∈ l) : x ≤ pyMax l := by
  cases l with
  | nil => cases hx
  | cons y ys =>
    rcases List.mem_cons.mp hx with h | h
    · subst h; exact le_foldl_max ys x
    · exact mem_le_foldl_max ys y x h

theorem pyMax_mem (l : List Nat) (hl : l ≠ []) : pyMax l ∈ l := by
  cases l with
  | nil => exact absurd rfl hl
  | cons y ys =>
    rcases foldl_max_mem ys y with h | h
    · rw [pyMax, h]; simp
    · exact List.mem_cons_of_mem y h

theorem mem_bugfix_revs (c : Version) (vs : List Version) (q : Nat) :
    q ∈ bugfix_revs c vs ↔ (⟨c.major, c.minor, q⟩ : Version) ∈ vs := by
  rw [bugfix_revs, List.mem_filterMap]
  constructor
  · rintro ⟨v, hv, hf⟩
    split at hf
    · rename_i hmm
      obtain ⟨hM, hm⟩ := hmm
      injection hf with hq
      obtain ⟨vM, vm, vp⟩ := v
      simp only at hM hm hq
      subst hM; subst hm; subst hq
      exact hv
    · cases hf
  · intro hv
    exact ⟨⟨c.major, c.minor, q⟩, hv, by simp⟩

theorem bugfix_revs_nil_iff (c : Version) (vs : List Version) :
    bugfix_revs c vs = [] ↔ ∀ v ∈ vs, ¬(v.major = c.major ∧ v.minor = c.minor) := by
  rw [List.eq_nil_iff_forall_not_mem]
  constructor
  · intro h v hv hmm
    apply h v.patch
    rw [mem_bugfix_revs]
    obtain ⟨vM, vm, vp⟩ := v
    obtain ⟨hM, hm⟩ := hmm
    simp only at hM hm
    subst hM; subst hm
    exact hv
  · intro h q hq
    rw [mem_bugfix_revs] at hq
    exact h _ hq ⟨rfl, rfl⟩

/-! ### Characterization of get_next_version -/

theorem get_next_version_empty (c : Version) (vs : List Version)
    (h : bugfix_revs c vs = []) :
    get_next_version c vs = ⟨c.major, c.minor, 0⟩ := by
  rw [get_next_version, if_pos (by rw [h]; rfl)]

theorem get_next_version_nonempty (c : Version) (vs : List Version)
    (h : bugfix_revs c vs ≠ []) :
    get_next_version c vs = ⟨c.major, c.minor, pyMax (bugfix_revs c vs) + 1⟩ := by
  rw [get_next_version, if_neg (by simpa using h)]

theorem get_next_version_major (c : Version) (vs : List Version) :
    (get_next_version c vs).major = c.major := by
  rw [get_next_version]; split <;> rfl

theorem get_next_version_minor (c : Version) (vs : List Version) :
    (get_next_version c vs).minor = c.minor := by
  rw [get_next_version]; split <;> rfl

theorem get_next_version_patch_gt (c : Version) (vs : List Version) (q : Nat)
    (hq : (⟨c.major, c.minor, q⟩ : Version) ∈ vs) :
    q < (get_next_version c vs).patch := by
  have hmem : q ∈ bugfix_revs c vs := (mem_bugfix_revs c vs q).mpr hq
  have hne : bugfix_revs c vs ≠ [] := by
    intro h; rw [h] at hmem; cases hmem
  rw [get_next_version_nonempty c vs hne]
  exact Nat.lt_succ_of_le (le_pyMax _ q hmem)

theorem get_next_version_not_mem (c : Version) (vs : List Version) :
    get_next_version c vs ∉ vs := by
  intro hmem
  by_cases hb : bugfix_revs c vs = []
  · rw [get_next_version_empty c vs hb] at hmem
    exact (bugfix_revs_nil_iff c vs).mp hb _ hmem ⟨rfl, rfl⟩
  · rw [get_next_version_nonempty c vs hb] at hmem
    have hlt := get_next_version_patch_gt c vs (pyMax (bugfix_revs c vs) + 1) hmem
    rw [get_next_version_nonempty c vs hb] at hlt
    exact Nat.lt_irrefl _ hlt

/-! ### Lemmas about splitlines and get_current_version -/

theorem splitlinesAux_acc_ne_nil (l : List Char) :
    ∀ acc : List Char, acc ≠ [] → splitlinesAux l acc ≠ [] := by
  induction l with
  | nil =>
    intro acc h
    unfold splitlinesAux
    rw [if_neg h]
    simp
  | cons c cs ih =>
    intro acc h
    unfold splitlinesAux
    by_cases h13 : c.toNat = 13
    · rw [if_pos h13]
      cases cs with
      | nil => simp
      | cons d ds => split <;> (try split) <;> simp
    · rw [if_neg h13]
      by_cases hlb : isLineBoundary c = true
      · rw [if_pos hlb]; simp
      · rw [if_neg hlb]
        exact ih (c :: acc) (by simp)

theorem splitlinesAux_ne_nil (l : List Char) (h : l ≠ []) :
    splitlinesAux l [] ≠ [] := by
  cases l with
  | nil => exact absurd rfl h
  | cons c cs =>
    unfold splitlinesAux
    by_cases h13 : c.toNat = 13
    · rw [if_pos h13]
      cases cs with
      | nil => simp
      | cons d ds => split <;> (try split) <;> simp
    · rw [if_neg h13]
      by_cases hlb : isLineBoundary c = true
      · rw [if_pos hlb]; simp
      · rw [if_neg hlb]
        exact splitlinesAux_acc_ne_nil cs [c] (by simp)

theorem string_data_ne_nil (s : String) (h : s ≠ "") : s.data ≠ [] := by
  intro hd
  apply h
  cases s with
  | mk data =>
    simp only at hd
    subst hd
    rfl

theorem splitlines_ne_nil (s : String) (h : s ≠ "") : splitlines s ≠ [] := by
  rw [splitlines]
  intro hcontra
  exact splitlinesAux_ne_nil s.data (string_data_ne_nil s h)
    (List.map_eq_nil_iff.mp hcontra)

theorem natRepr_single_digit (n : Nat) (h1 : 0 < n) (h2 : n < 10) :
    natRepr n = [Nat.digitChar n] := by
  rw [natRepr, if_neg (Nat.pos_iff_ne_zero.mp h1), natReprCore,
    dif_neg (Nat.pos_iff_ne_zero.mp h1), Nat.div_eq_of_lt h2, natReprCore,
    dif_pos rfl, Nat.mod_eq_of_lt h2]
  rfl

theorem version_string_one_two_three : version_string ⟨1, 2, 3⟩ = "v1.2.3" := by
  rw [version_string]
  rw [show (⟨1, 2, 3⟩ : Version).major = 1 from rfl,
    show (⟨1, 2, 3⟩ : Version).minor = 2 from rfl,
    show (⟨1, 2, 3⟩ : Version).patch = 3 from rfl,
    natRepr_single_digit 1 (by decide) (by decide),
    natRepr_single_digit 2 (by decide) (by decide),
    natRepr_single_digit 3 (by decide) (by decide)]
  rfl

theorem get_current_version_some (content : String) :
    get_current_version (some content) =
      match splitlines content with
      | [] => PyOutcome.indexError
      | line :: _ => PyOutcome.ok (parse_version (pyStrip line)) := rfl

/-! ### The claims -/

/-- Claim C1: get_next_version keeps the major and minor of the current
version; when no element of the version list matches the current major
and minor the patch of the result is 0, and otherwise the result's patch
is the maximum matching patch plus one: its predecessor is a matching
element of the list and it is strictly greater than every matching
patch. -/
theorem C1_get_next_version_spec (c : Version) (vs : List Version) :
    (get_next_version c vs).major = c.major ∧
    (get_next_version c vs).minor = c.minor ∧
    ((∀ v ∈ vs, ¬(v.major = c.major ∧ v.minor = c.minor)) →
      get_next_version c vs = ⟨c.major, c.minor, 0⟩) ∧
    ((∃ v ∈ vs, v.major = c.major ∧ v.minor = c.minor) →
      (⟨c.major, c.minor, (get_next_version c vs).patch - 1⟩ : Version) ∈ vs ∧
      ∀ q : Nat, (⟨c.major, c.minor, q⟩ : Version) ∈ vs →
        q < (get_next_version c vs).patch) := by
  refine ⟨get_next_version_major c vs, get_next_version_minor c vs, ?_, ?_⟩
  · intro h
    exact get_next_version_empty c vs ((bugfix_revs_nil_iff c vs).mpr h)
  · rintro ⟨v, hv, hM, hm⟩
    have hne : bugfix_revs c vs ≠ [] := by
      intro hnil
      exact (bugfix_revs_nil_iff c vs).mp hnil v hv ⟨hM, hm⟩
    refine ⟨?_, fun q hq => get_next_version_patch_gt c vs q hq⟩
    have hmem : pyMax (bugfix_revs c vs) ∈ bugfix_revs c vs := pyMax_mem _ hne
    rw [mem_bugfix_revs] at hmem
    have hp : (get_next_version c vs).patch = pyMax (bugfix_revs c vs) + 1 := by
      rw [get_next_version_nonempty c vs hne]
    rw [hp]
    simpa using hmem

/-- Claim C2: round-trip — formatting any version with version_string and
parsing the result with parse_version returns exactly the original
triple. -/
theorem C2_round_trip (v : Version) :
    parse_version (version_string v) = some v :=
  parse_version_version_string v

/-- Claim C3 (amended): get_current_version returns a value without
raising when the marker file is absent and when its content is any
non-empty string; the original claim also allowed the empty content
string, on which the code raises IndexError (see the counterexample). -/
theorem C3_total_on_nonempty_content :
    (get_current_version none).isOk = true ∧
    ∀ content : String, content ≠ "" →
      (get_current_version (some content)).isOk = true := by
  refine ⟨rfl, ?_⟩
  intro content h
  have hd : splitlines content ≠ [] := splitlines_ne_nil content h
  rw [get_current_version_some]
  rcases hl : splitlines content with _ | ⟨line, rest⟩
  · exact absurd hl hd
  · rfl

/-- Claim C3, counterexample: on an existing marker file whose content is
the empty string, get_current_version raises IndexError (splitlines of
the empty string is the empty list, and the code indexes its first
element), so it is not total over all content strings. -/
theorem C3_counterexample :
    get_current_version (some "") = PyOutcome.indexError := by decide

/-- Claim C3, witness: the amended totality applied at a concrete
non-empty content string. -/
theorem C3_witness :
    (get_current_version (some "v9.9.9")).isOk = true :=
  C3_total_on_nonempty_content.2 "v9.9.9" (by decide)

/-- Claim C4: whenever the marker file content has a first line and that
line, stripped, does not parse as a version, get_current_version
propagates the parse failure as None — not the default version and not
an error. -/
theorem C4_parse_failure_propagates (content line : String) (rest : List String)
    (h1 : splitlines content = line :: rest)
    (h2 : parse_version (pyStrip line) = none) :
    get_current_version (some content) = PyOutcome.ok none := by
  rw [get_current_version_some, h1]
  exact congrArg PyOutcome.ok h2

/-- Claim C4, witness: a marker file containing the single line latest
yields None. -/
theorem C4_witness :
    get_current_version (some "latest") = PyOutcome.ok none :=
  C4_parse_failure_propagates "latest" "latest" [] (by decide) (by decide)

/-- Claim C5: parse_version returns none exactly on strings that do not
match the anchored pattern v(digits).(digits).(digits) as the whole
string; in particular the four example strings of the spec all return
none. -/
theorem C5_non_match_safety :
    (∀ s : String, parse_version s = none ↔ ¬ spec_full_match s) ∧
    parse_version "latest" = none ∧
    parse_version "v1.2" = none ∧
    parse_version "v1.2.3.4" = none ∧
    parse_version "V1.2.3" = none := by
  refine ⟨?_, by decide, by decide, by decide, by decide⟩
  intro s
  rw [spec_full_match_iff]
  constructor
  · intro h hne
    exact hne h
  · intro h
    by_contra hne
    exact h hne

/-- Claim C6: when no marker file is present, get_current_version returns
the default version (1,0,0). -/
theorem C6_default_version :
    get_current_version none = PyOutcome.ok (some ⟨1, 0, 0⟩) := rfl

/-- Claim C7: get_next_version depends only on the set of versions in its
list: two lists with the same elements (in particular, one with
duplicates) give the same result, and the spec's example with duplicated
v1.0.5 yields (1,0,6). -/
theorem C7_duplicates_idempotent :
    (∀ (c : Version) (vs1 vs2 : List Version), (∀ v, v ∈ vs1 ↔ v ∈ vs2) →
      get_next_version c vs1 = get_next_version c vs2) ∧
    get_next_version ⟨1, 0, 0⟩ [⟨1, 0, 5⟩, ⟨1, 0, 5⟩, ⟨1, 0, 2⟩] = ⟨1, 0, 6⟩ := by
  refine ⟨?_, by decide⟩
  intro c vs1 vs2 hmem
  have hb : ∀ q, q ∈ bugfix_revs c vs1 ↔ q ∈ bugfix_revs c vs2 := by
    intro q
    rw [mem_bugfix_revs, mem_bugfix_revs]
    exact hmem _
  by_cases h1 : bugfix_revs c vs1 = []
  · have h2 : bugfix_revs c vs2 = [] := by
      rw [List.eq_nil_iff_forall_not_mem] at h1 ⊢
      intro q hq
      exact h1 q ((hb q).mpr hq)
    rw [get_next_version_empty c vs1 h1, get_next_version_empty c vs2 h2]
  · have h2 : bugfix_revs c vs2 ≠ [] := by
      intro h2
      apply h1
      rw [List.eq_nil_iff_forall_not_mem] at h2 ⊢
      intro q hq
      exact h2 q ((hb q).mp hq)
    have hmax : pyMax (bugfix_revs c vs1) = pyMax (bugfix_revs c vs2) :=
      Nat.le_antisymm
        (le_pyMax _ _ ((hb _).mp (pyMax_mem _ h1)))
        (le_pyMax _ _ ((hb _).mpr (pyMax_mem _ h2)))
    rw [get_next_version_nonempty c vs1 h1, get_next_version_nonempty c vs2 h2, hmax]

/-- Claim C7, witness: the idempotence applied to the duplicated list and
its deduplication. -/
theorem C7_witness :
    get_next_version ⟨1, 0, 0⟩ [⟨1, 0, 5⟩, ⟨1, 0, 5⟩, ⟨1, 0, 2⟩] =
      get_next_version ⟨1, 0, 0⟩ [⟨1, 0, 5⟩, ⟨1, 0, 2⟩] :=
  C7_duplicates_idempotent.1 ⟨1, 0, 0⟩ _ _ (by
    intro v
    simp only [List.mem_cons, List.not_mem_nil, or_false]
    tauto)

/-- Claim C8: after write_version_file, the marker file content parses
back to exactly the version written, and it matches the same anchored
tag pattern v(digits).(digits).(digits) as tags. -/
theorem C8_marker_file_invariant (v : Version) :
    parse_version (write_version_file v) = some v ∧
    spec_full_match (write_version_file v) := by
  refine ⟨parse_version_version_string v, ?_⟩
  rw [spec_full_match_iff]
  show parse_version (version_string v) ≠ none
  rw [parse_version_version_string v]
  simp

/-- Claim C9: freshness — the version computed by get_next_version is
never an element of the input version list (the membership test
evaluates to false for every current version and every list). -/
theorem C9_fresh_version (c : Version) (vs : List Version) :
    decide (get_next_version c vs ∈ vs) = false :=
  decide_eq_false (get_next_version_not_mem c vs)

/-- Claim C10: parse_version accepts components with leading zeros —
v01.2.3 parses to (1,2,3) — while version_string of (1,2,3) is the
canonical v1.2.3, so formatting does not reproduce every accepted
string. -/
theorem C10_leading_zeros :
    parse_version "v01.2.3" = some ⟨1, 2, 3⟩ ∧
    version_string ⟨1, 2, 3⟩ ≠ "v01.2.3" := by
  refine ⟨by decide, ?_⟩
  rw [version_string_one_two_three]
  decide
